import Mathlib

/-!
Verification of the cardcopy transfer-and-verify engine.

Shallow embedding of the engine in `src/main.py` (class `DITCopyTool` /
`CopyManager`) and the hashing helper in `src/md5_verifier.py`
(class `MD5Verifier`).  Pure fragments of the Python code are translated to
Lean functions; the stateful copy/verify session is modelled by explicit
state passing over a counter record, with floats rendered as rationals and
the ambient wall clock passed in as an explicit argument.
-/

namespace CardCopy

/-! ## Path and name handling -/

/-- Models `os.path.join(a, b)` for a relative second component `b`. -/
def joinPath (a b : String) : String := a ++ "/" ++ b

/-- Default whitespace characters recognised by Python `str.strip()`
(restricted to ASCII, which is all the engine ever feeds it). -/
def pyIsSpace (c : Char) : Bool :=
  c == ' ' || c == '\t' || c == '\n' || c == '\r' || c == '\x0b' || c == '\x0c'

/-- Models Python `str.strip()` on a list of characters. -/
def stripChars (l : List Char) : List Char :=
  ((l.dropWhile pyIsSpace).reverse.dropWhile pyIsSpace).reverse

/-- Characters kept by the project-name sanitizer, from `main.py` line 1432:
`c.isalnum() or c in "-_ "` (ASCII reading of `isalnum`). -/
def keepChar (c : Char) : Bool := c.isAlphanum || c == '-' || c == '_' || c == ' '

/-- The sanitizer body of `DITCopyTool.copy_process` (`main.py` 1430-1433):
filter the kept characters, strip surrounding whitespace, then replace the
remaining spaces with underscores. -/
def sanitizeChars (l : List Char) : List Char :=
  (stripChars (l.filter keepChar)).map (fun c => if c == ' ' then '_' else c)

/-- String-level wrapper of `sanitizeChars`. -/
def sanitizeProject (s : String) : String := String.mk (sanitizeChars s.data)

/-- Two-digit zero-padded decimal rendering, as used by `strftime`. -/
def twoDigits (n : ℕ) : String := if n < 10 then "0" ++ toString n else toString n

/-- Models `datetime.now().strftime` with the date pattern of
`main.py` line 1436 applied to an explicit clock reading. -/
def strftimeStamp (y mo d h mi s : ℕ) : String :=
  toString y ++ twoDigits mo ++ twoDigits d ++ "_" ++
    twoDigits h ++ twoDigits mi ++ twoDigits s

/-- Date-folder naming of `DITCopyTool.copy_process` (`main.py` 1426-1443):
the sanitized project name, with the timestamp prepended when the automatic
date option is on. -/
def computeDateFolder (proj : String) (autoDate : Bool) (stampNow : String) : String :=
  let safe := sanitizeProject proj
  if autoDate then (if safe ≠ "" then stampNow ++ "_" ++ safe else stampNow) else safe

/-- Destination layout computed by the copy phase (`main.py` 1424-1447)
at clock reading `t1`: the stored `copy_manager.date_folder` (reset to
`none` at session start and assigned here exactly once) together with the
`final_dest` directory. -/
def copyPhaseLayout (root proj : String) (autoFolder autoDate : Bool) (t1 : String) :
    Option String × String :=
  if autoFolder then
    let df := computeDateFolder proj autoDate t1
    (some df, joinPath root df)
  else (none, root)

/-- Destination layout resolved by the verify phase (`main.py` 1693-1702).
The clock reading `t2` at verify time is passed in to make explicit that the
code never consults it: only the stored `date_folder` is used. -/
def verifyPhaseLayout (root : String) (autoFolder : Bool) (stored : Option String)
    (t2 : String) : String :=
  if autoFolder then
    match stored with
    | some df => joinPath root df
    | none => root
  else root

/-- Per-file destination path built by the copy phase
(`DITCopyTool.copy_folder`, `main.py` 1575-1620). -/
def copyDestFile (finalDest customName relPath fileName : String) : String :=
  let targetPath := joinPath finalDest customName
  let currentDest := if relPath = "." then targetPath else joinPath targetPath relPath
  joinPath currentDest fileName

/-- Per-file destination path built by the verify phase
(`DITCopyTool.verify_files` 1706-1713 and `DITCopyTool.verify_folder`
1750-1765). -/
def verifyDestFile (finalDest customName relPath fileName : String) : String :=
  let destPath := joinPath finalDest customName
  let currentDest := if relPath = "." then destPath else joinPath destPath relPath
  joinPath currentDest fileName

/-! ## Chunk-size tiers -/

/-- Chunk-size selection of `DITCopyTool.copy_file_with_progress`
(`main.py` 1506-1514). -/
def chunk_size (file_size : ℕ) : ℕ :=
  if file_size > 500 * 1024 * 1024 then 16 * 1024 * 1024
  else if file_size > 100 * 1024 * 1024 then 8 * 1024 * 1024
  else if file_size > 10 * 1024 * 1024 then 4 * 1024 * 1024
  else 1024 * 1024

/-! ## Speed and eta arithmetic -/

/-- Copy-phase eta from `DITCopyTool.update_progress` (`main.py` 1877-1881),
with float arithmetic rendered over the rationals.  `speedMB` is the
megabytes-per-second speed value the code holds; sizes are in bytes. -/
def copyEtaSeconds (totalSize copiedSize speedMB : ℚ) : ℚ :=
  if 0 < speedMB ∧ copiedSize < totalSize then
    ((totalSize - copiedSize) / (1024 * 1024)) / speedMB
  else 0

/-- Verify-phase eta from `DITCopyTool.update_verify_progress`
(`main.py` 1919-1923); counts are files and the speed is files per second. -/
def verifyEtaSeconds (totalFiles verifiedFiles speedFiles : ℚ) : ℚ :=
  if 0 < speedFiles ∧ verifiedFiles < totalFiles then
    (totalFiles - verifiedFiles) / speedFiles
  else 0

/-! ## Chunked copy with fallback (copy_file_with_progress / copy_folder) -/

/-- Fuel-driven splitting of a byte list into chunks of at most `n` bytes;
the fuel argument makes the recursion structural.  With fuel at least the
length of the list this models the `src.read(chunk_size)` loop of
`copy_file_with_progress` (`main.py` 1529-1540). -/
def chunksOfAux (n : ℕ) : ℕ → List α → List (List α)
  | 0, _ => []
  | _ + 1, [] => []
  | fuel + 1, a :: as => ((a :: as).take n) :: chunksOfAux n fuel ((a :: as).drop n)

/-- The chunk decomposition of a byte list (empty when the chunk size is
zero, which the tiers of `chunk_size` never produce). -/
def chunksOf (n : ℕ) (l : List α) : List (List α) :=
  if n = 0 then [] else chunksOfAux n l.length l

/-- The destination file state after a copy primitive: its byte content and
whether metadata was carried over (`shutil.copy2` preserves metadata, the
chunked stream loop does not). -/
structure DestFile where
  content : List ℕ
  metadataCopied : Bool
deriving DecidableEq

/-- The chunked write loop: writes chunk after chunk, raising a stream
error when the injected failure index is reached (`main.py` 1529-1540 with
an explicit fault at chunk `failAt`). -/
def writeChunks : List (List ℕ) → ℕ → Option ℕ → List ℕ → Except String (List ℕ)
  | [], _, _, written => Except.ok written
  | ch :: rest, idx, failAt, written =>
    if failAt = some idx then Except.error "stream write failed"
    else writeChunks rest (idx + 1) failAt (written ++ ch)

/-- Models `shutil.copy2`: a whole-file copy that preserves metadata and
overwrites the destination, or raises. -/
def shutil_copy2 (src : List ℕ) (fails : Bool) : Except String DestFile :=
  if fails then Except.error "copy of whole file failed"
  else Except.ok { content := src, metadataCopied := true }

/-- Models `DITCopyTool.copy_file_with_progress` (`main.py` 1502-1570):
chunked streaming with the size-tier chunk size; on a stream error the
`except` branch falls back to `shutil.copy2` and any fallback error
propagates to the caller. -/
def copy_file_with_progress (src : List ℕ) (failAt : Option ℕ)
    (fallbackFails : Bool) : Except String DestFile :=
  match writeChunks (chunksOf (chunk_size src.length) src) 0 failAt [] with
  | Except.ok written => Except.ok { content := written, metadataCopied := false }
  | Except.error _ => shutil_copy2 src fallbackFails

/-- The per-file loop body of `DITCopyTool.copy_folder` (`main.py`
1615-1673): each file copy runs under `try`, a success increments
`copied_files`, an error only logs and the loop continues.  The function is
total, reflecting that no per-file error escapes the loop. -/
def copy_folder_loop (copied_files : ℕ) : List (Except String DestFile) → ℕ
  | [] => copied_files
  | r :: rest =>
    match r with
    | Except.ok _ => copy_folder_loop (copied_files + 1) rest
    | Except.error _ => copy_folder_loop copied_files rest

/-! ## MD5 verifier (md5_verifier.py) -/

/-- Models `MD5Verifier.calculate_md5` (`md5_verifier.py` 18-36): the file
is read through the filesystem map `fs`, streamed in 8192-byte chunks into
the digest (so the digest is a function of the concatenated chunks), and an
unreadable file raises. -/
def calculate_md5 (md5hex : List ℕ → String) (fs : String → Option (List ℕ))
    (path : String) : Except String String :=
  match fs path with
  | some content => Except.ok (md5hex ((chunksOf 8192 content).flatten))
  | none => Except.error ("md5 computation failed: " ++ path)

/-- Models `MD5Verifier.verify_file` (`md5_verifier.py` 38-59): digest the
source, digest the destination, compare; any raise is reported as a failed
verification.  The filesystem map is fixed across the two reads, modelling
contents that do not change between the digest computations. -/
def verify_file (md5hex : List ℕ → String) (fs : String → Option (List ℕ))
    (source_path dest_path : String) : Bool × String :=
  match calculate_md5 md5hex fs source_path with
  | Except.error e => (false, "verification failed: " ++ e)
  | Except.ok source_md5 =>
    match calculate_md5 md5hex fs dest_path with
    | Except.error e => (false, "verification failed: " ++ e)
    | Except.ok dest_md5 =>
      if source_md5 = dest_md5 then (true, "")
      else (false, "md5 mismatch between source and dest")

/-! ## Checksum manifest loader (md5_verifier.py load_checksum_file) -/

/-- Whether a character list contains two consecutive spaces. -/
def hasDoubleSpace : List Char → Bool
  | [] => false
  | [_] => false
  | c1 :: c2 :: rest => (c1 == ' ' && c2 == ' ') || hasDoubleSpace (c2 :: rest)

/-- Models Python `line.split(two-space, 1)` restricted to the split case:
returns the parts before and after the FIRST occurrence of two consecutive
spaces, or `none` when there is no such occurrence. -/
def splitTwoSpaceOnce : List Char → Option (List Char × List Char)
  | [] => none
  | [_] => none
  | c1 :: c2 :: rest =>
    if c1 == ' ' && c2 == ' ' then some ([], rest)
    else
      match splitTwoSpaceOnce (c2 :: rest) with
      | some (a, b) => some (c1 :: a, b)
      | none => none

/-- Python dict assignment `d[k] = v` on an insertion-ordered association
list. -/
def dictInsert (d : List (String × String)) (k v : String) :
    List (String × String) :=
  if d.any (fun kv => kv.1 == k) then
    d.map (fun kv => if kv.1 == k then (k, v) else kv)
  else d ++ [(k, v)]

/-- One iteration of the loader loop of `MD5Verifier.load_checksum_file`
(`md5_verifier.py` 113-120): strip the line, skip blanks and comment lines,
split once on the first double space, and record path to digest. -/
def load_checksum_line (d : List (String × String)) (line : String) :
    List (String × String) :=
  let stripped := stripChars line.data
  if stripped ≠ [] ∧ stripped.head? ≠ some '#' then
    match splitTwoSpaceOnce stripped with
    | some (md5_hash, file_path) =>
        dictInsert d (String.mk file_path) (String.mk md5_hash)
    | none => d
  else d

/-- The loader over all lines of the manifest file. -/
def load_checksum_file (lines : List String) : List (String × String) :=
  lines.foldl load_checksum_line []

/-! ## Session counter model (copy_process / copy_folder / verify_files) -/

/-- One file of the session walk: its byte size, whether the media filter
accepts it, and the byte counts at which the 200ms progress throttle fires
during its chunked copy. -/
structure MFile where
  size : ℚ
  isMedia : Bool
  pushPoints : List ℚ
deriving DecidableEq

/-- The filter applied at `main.py` lines 1460 and 1622: a file is
processed unless only-media mode is on and the file is not a media file. -/
def passesFilter (onlyMedia : Bool) (f : MFile) : Bool := !onlyMedia || f.isMedia

/-- The session counters of `CopyManager` that the claims mention.
`transient` marks the states in which `copied_size` temporarily holds a
provisional display value (`main.py` 1559-1562). -/
structure Counters where
  totalFiles : ℕ
  copiedFiles : ℕ
  verifiedFiles : ℕ
  totalSize : ℚ
  copiedSize : ℚ
  transient : Bool
deriving DecidableEq

/-- The reset of `copy_process` at session start (`main.py` 1403-1408). -/
def zeroCounters : Counters :=
  { totalFiles := 0, copiedFiles := 0, verifiedFiles := 0,
    totalSize := 0, copiedSize := 0, transient := false }

/-- Python built-in `min` on rationals. -/
def ratMin (x y : ℚ) : ℚ := if x ≤ y then x else y

/-- Python built-in `abs` on rationals. -/
def ratAbs (x : ℚ) : ℚ := if x < 0 then -x else x

/-- The provisional cumulative-bytes value of `main.py` 1553-1555:
committed bytes plus the fractional progress of the current file, capped at
the total transfer size. -/
def provisionalBytes (committed total fileSize p : ℚ) : ℚ :=
  ratMin (committed + fileSize * (if 0 < fileSize then p / fileSize else 0)) total

/-- Result of one throttled progress push: the sequence of values taken by
the tracker `copied_size` field during the push (paired with the transient
flag), the value handed to the display update if any, and the value the
field holds when the push is over. -/
structure PushResult where
  states : List (ℚ × Bool)
  displayed : Option ℚ
  final : ℚ
deriving DecidableEq

/-- The throttled progress push of `main.py` 1551-1562: when the total size
is positive and the provisional value differs from the committed value by
more than one percent of the total, `copied_size` is set to the provisional
value, the display is updated, and `copied_size` is then restored to the
original committed value; otherwise nothing is written. -/
def displayPush (committed total fileSize p : ℚ) : PushResult :=
  if 0 < total then
    if total * (1 / 100) < ratAbs (provisionalBytes committed total fileSize p - committed) then
      { states := [(provisionalBytes committed total fileSize p, true),
          (committed, false)],
        displayed := some (provisionalBytes committed total fileSize p),
        final := committed }
    else { states := [], displayed := none, final := committed }
  else { states := [], displayed := none, final := committed }

/-- Counter states visited during the throttled pushes of one file copy;
each push starts from the same committed counters because the push itself
restores them. -/
def pushStates (c : Counters) (f : MFile) : List Counters :=
  f.pushPoints.flatMap (fun p =>
    (displayPush c.copiedSize c.totalSize f.size p).states.map
      (fun vt => { c with copiedSize := vt.1, transient := vt.2 }))

/-- The counting walk of `copy_process` (`main.py` 1456-1466): each file
passing the filter bumps `total_files` and `total_size`.  Returns the list
of counter states visited and the final counters. -/
def countPhase (onlyMedia : Bool) : List MFile → Counters → List Counters × Counters
  | [], c => ([], c)
  | f :: fs, c =>
    if passesFilter onlyMedia f then
      let c1 := { c with totalFiles := c.totalFiles + 1,
                         totalSize := c.totalSize + f.size }
      let r := countPhase onlyMedia fs c1
      (c1 :: r.1, r.2)
    else countPhase onlyMedia fs c

/-- The copy walk (`DITCopyTool.copy_folder`, `main.py` 1615-1671): each
passing file first produces its transient push states, then the completed
state with `copied_files` and `copied_size` advanced (`main.py`
1660-1663). -/
def copyPhase (onlyMedia : Bool) : List MFile → Counters → List Counters × Counters
  | [], c => ([], c)
  | f :: fs, c =>
    if passesFilter onlyMedia f then
      let c1 := { c with copiedFiles := c.copiedFiles + 1,
                         copiedSize := c.copiedSize + f.size }
      let r := copyPhase onlyMedia fs c1
      (pushStates c f ++ c1 :: r.1, r.2)
    else copyPhase onlyMedia fs c

/-- The verify walk (`DITCopyTool.verify_files` / `verify_folder`,
`main.py` 1706-1724 and 1750-1827): every file is walked regardless of the
media filter; a file whose destination exists and whose digests match
increments `verified_files` (`main.py` 1813-1814). -/
def verifyPhase (destExists hashMatches : MFile → Bool) :
    List MFile → Counters → List Counters × Counters
  | [], c => ([], c)
  | f :: fs, c =>
    let c1 := if destExists f && hashMatches f then
        { c with verifiedFiles := c.verifiedFiles + 1 }
      else c
    let r := verifyPhase destExists hashMatches fs c1
    (c1 :: r.1, r.2)

/-- The full trace of counter states over one session: the zero state of
the reset at session start, then the counting, copy and verify phases in
order over the same walked file list. -/
def sessionTrace (onlyMedia : Bool) (destExists hashMatches : MFile → Bool)
    (files : List MFile) : List Counters :=
  let co := countPhase onlyMedia files zeroCounters
  let cp := copyPhase onlyMedia files co.2
  let vp := verifyPhase destExists hashMatches files cp.2
  zeroCounters :: (co.1 ++ cp.1 ++ vp.1)

/-- The verify-phase file total of `main.py` 1684-1689: every file under
every source item, with no media filter. -/
def total_md5_files (files : List MFile) : ℕ := files.length

/-- The copy-phase file total of `main.py` 1456-1462: only files passing
the filter. -/
def total_files_count (onlyMedia : Bool) (files : List MFile) : ℕ :=
  (files.filter (passesFilter onlyMedia)).length

/-- The three per-file outcomes of the verify walk: verified (destination
exists, digests match), mismatch (exists, digests differ), missing
(destination absent, `main.py` 1826-1837). -/
inductive VOutcome
  | verified
  | mismatch
  | missing
deriving DecidableEq

/-- Outcome of the verify walk for one file. -/
def verifyOutcome (destExists hashMatches : MFile → Bool) (f : MFile) : VOutcome :=
  if destExists f then
    (if hashMatches f then VOutcome.verified else VOutcome.mismatch)
  else VOutcome.missing

/-- Final `verified_files` value of the verify walk. -/
def verifiedCount (destExists hashMatches : MFile → Bool) (files : List MFile) : ℕ :=
  files.countP (fun f => destExists f && hashMatches f)

/-- The failure count printed by the verify summary (`main.py` 1737):
total files under verification minus the verified ones. -/
def summaryFailures (destExists hashMatches : MFile → Bool) (files : List MFile) : ℕ :=
  total_md5_files files - verifiedCount destExists hashMatches files

/-- The ordering the monotone counters respect between consecutive session
states. -/
def monoStep (a b : Counters) : Prop :=
  a.totalFiles ≤ b.totalFiles ∧ a.copiedFiles ≤ b.copiedFiles ∧
  a.verifiedFiles ≤ b.verifiedFiles ∧ a.totalSize ≤ b.totalSize

/-- The `copied_size` values of the non-transient (committed) states of a
trace. -/
def committedSizes (l : List Counters) : List ℚ :=
  (l.filter (fun c => !c.transient)).map Counters.copiedSize

/-- Total size of the filter-passing files of a walk. -/
def passSum (onlyMedia : Bool) (fs : List MFile) : ℚ :=
  ((fs.filter (passesFilter onlyMedia)).map MFile.size).sum

/-- Equality of the four counters that are monotone throughout a session
(used to step chains across transient states that only touch
`copiedSize`). -/
def sameMono (a x : Counters) : Prop :=
  x.totalFiles = a.totalFiles ∧ x.copiedFiles = a.copiedFiles ∧
  x.verifiedFiles = a.verifiedFiles ∧ x.totalSize = a.totalSize

end CardCopy

namespace CardCopy

/-! ## Claim theorems (first group) -/

/-- Membership in a stripped character list implies membership in the
original list. -/
theorem mem_of_mem_stripChars {x : Char} {l : List Char} (h : x ∈ stripChars l) :
    x ∈ l := by
  unfold stripChars at h
  rw [List.mem_reverse] at h
  have h2 := (List.dropWhile_sublist pyIsSpace).mem h
  rw [List.mem_reverse] at h2
  exact (List.dropWhile_sublist pyIsSpace).mem h2

/-- C3: the destination root folder name is computed once at copy start and
the verify phase resolves every destination path under that same stored
folder name plus the custom name and relative path, independent of the
clock reading at verify time. -/
theorem c3_destination_layout_stable
    (root proj customName relPath fileName : String) (aF aD : Bool)
    (t1 t2 t2' : String) :
    verifyDestFile (verifyPhaseLayout root aF (copyPhaseLayout root proj aF aD t1).1 t2)
        customName relPath fileName
      = copyDestFile (copyPhaseLayout root proj aF aD t1).2 customName relPath fileName
    ∧ verifyPhaseLayout root aF (copyPhaseLayout root proj aF aD t1).1 t2
      = verifyPhaseLayout root aF (copyPhaseLayout root proj aF aD t1).1 t2' := by
  cases aF <;> simp [copyPhaseLayout, verifyPhaseLayout, copyDestFile, verifyDestFile]

/-- C4: the chunked copier selects the chunk size by the stated size tiers,
and in particular a 600,000,000-byte file gets 16 MiB chunks. -/
theorem c4_chunk_tiers :
    (∀ n : ℕ, 500 * 1024 * 1024 < n → chunk_size n = 16 * 1024 * 1024)
    ∧ (∀ n : ℕ, 100 * 1024 * 1024 < n → n ≤ 500 * 1024 * 1024 →
        chunk_size n = 8 * 1024 * 1024)
    ∧ (∀ n : ℕ, 10 * 1024 * 1024 < n → n ≤ 100 * 1024 * 1024 →
        chunk_size n = 4 * 1024 * 1024)
    ∧ (∀ n : ℕ, n ≤ 10 * 1024 * 1024 → chunk_size n = 1024 * 1024)
    ∧ chunk_size 600000000 = 16 * 1024 * 1024 := by
  refine ⟨?_, ?_, ?_, ?_, by norm_num [chunk_size]⟩
  · intro n h1
    simp only [chunk_size]
    rw [if_pos (by omega : n > 500 * 1024 * 1024)]
  · intro n h1 h2
    simp only [chunk_size]
    rw [if_neg (by omega : ¬ n > 500 * 1024 * 1024),
      if_pos (by omega : n > 100 * 1024 * 1024)]
  · intro n h1 h2
    simp only [chunk_size]
    rw [if_neg (by omega : ¬ n > 500 * 1024 * 1024),
      if_neg (by omega : ¬ n > 100 * 1024 * 1024),
      if_pos (by omega : n > 10 * 1024 * 1024)]
  · intro n h1
    simp only [chunk_size]
    rw [if_neg (by omega : ¬ n > 500 * 1024 * 1024),
      if_neg (by omega : ¬ n > 100 * 1024 * 1024),
      if_neg (by omega : ¬ n > 10 * 1024 * 1024)]

/-- C4 witness: the tier theorem applied at concrete sizes. -/
theorem c4_chunk_tiers_witness :
    chunk_size 524288001 = 16 * 1024 * 1024
    ∧ chunk_size 104857601 = 8 * 1024 * 1024
    ∧ chunk_size 10485761 = 4 * 1024 * 1024
    ∧ chunk_size 2048 = 1024 * 1024 :=
  ⟨c4_chunk_tiers.1 524288001 (by norm_num),
   c4_chunk_tiers.2.1 104857601 (by norm_num) (by norm_num),
   c4_chunk_tiers.2.2.1 10485761 (by norm_num) (by norm_num),
   c4_chunk_tiers.2.2.2.1 2048 (by norm_num)⟩

/-- C6: the reported eta is non-negative in every state, equals
remaining divided by speed (in consistent byte units for the copy phase,
file units for the verify phase) exactly when the speed is positive and
something remains, and is zero otherwise. -/
theorem c6_eta_formula :
    (∀ t c s : ℚ, 0 ≤ copyEtaSeconds t c s)
    ∧ (∀ t c s : ℚ, 0 < s → 0 < t - c →
        copyEtaSeconds t c s = (t - c) / (s * (1024 * 1024)))
    ∧ (∀ t c s : ℚ, s = 0 ∨ t - c ≤ 0 → copyEtaSeconds t c s = 0)
    ∧ (∀ t v s : ℚ, 0 ≤ verifyEtaSeconds t v s)
    ∧ (∀ t v s : ℚ, 0 < s → 0 < t - v → verifyEtaSeconds t v s = (t - v) / s)
    ∧ (∀ t v s : ℚ, s = 0 ∨ t - v ≤ 0 → verifyEtaSeconds t v s = 0) := by
  refine ⟨?_, ?_, ?_, ?_, ?_, ?_⟩
  · intro t c s
    unfold copyEtaSeconds
    split
    · next h =>
        exact div_nonneg (div_nonneg (by linarith [h.2]) (by norm_num)) (le_of_lt h.1)
    · exact le_refl 0
  · intro t c s hs hr
    have hc : c < t := by linarith
    unfold copyEtaSeconds
    rw [if_pos ⟨hs, hc⟩]
    rw [div_div, mul_comm]
  · intro t c s h
    have hne : ¬ (0 < s ∧ c < t) := by
      rcases h with h | h
      · rintro ⟨hs, _⟩; rw [h] at hs; exact lt_irrefl 0 hs
      · rintro ⟨_, hc⟩; linarith
    unfold copyEtaSeconds
    rw [if_neg hne]
  · intro t v s
    unfold verifyEtaSeconds
    split
    · next h => exact div_nonneg (by linarith [h.2]) (le_of_lt h.1)
    · exact le_refl 0
  · intro t v s hs hr
    have hv : v < t := by linarith
    unfold verifyEtaSeconds
    rw [if_pos ⟨hs, hv⟩]
  · intro t v s h
    have hne : ¬ (0 < s ∧ v < t) := by
      rcases h with h | h
      · rintro ⟨hs, _⟩; rw [h] at hs; exact lt_irrefl 0 hs
      · rintro ⟨_, hv⟩; linarith
    unfold verifyEtaSeconds
    rw [if_neg hne]

/-- C6 witness: the eta facts applied at concrete values. -/
theorem c6_eta_formula_witness :
    0 ≤ copyEtaSeconds 100 40 2
    ∧ copyEtaSeconds 100 40 2 = (100 - 40) / (2 * (1024 * 1024))
    ∧ copyEtaSeconds 100 100 2 = 0
    ∧ verifyEtaSeconds 10 4 2 = (10 - 4) / 2
    ∧ verifyEtaSeconds 10 4 0 = 0 :=
  ⟨c6_eta_formula.1 100 40 2,
   c6_eta_formula.2.1 100 40 2 (by norm_num) (by norm_num),
   c6_eta_formula.2.2.1 100 100 2 (Or.inr (by norm_num)),
   c6_eta_formula.2.2.2.2.1 10 4 2 (by norm_num) (by norm_num),
   c6_eta_formula.2.2.2.2.2 10 4 0 (Or.inl rfl)⟩

/-- C7: sanitizing a project name keeps only alphanumerics, hyphen and
underscore in the result (spaces are gone because internal ones become
underscores and surrounding ones are stripped), and the concrete example
maps as the spec states, with and without the date prefix. -/
theorem c7_name_sanitizer :
    (∀ s : String, ∀ c ∈ (sanitizeProject s).data,
        c.isAlphanum = true ∨ c = '-' ∨ c = '_')
    ∧ sanitizeProject "  My Shoot! #1  " = "My_Shoot_1"
    ∧ computeDateFolder "  My Shoot! #1  " false "20991231_235959" = "My_Shoot_1"
    ∧ computeDateFolder "  My Shoot! #1  " true (strftimeStamp 2025 1 2 3 4 5)
        = "20250102_030405_My_Shoot_1" := by
  refine ⟨?_, by decide, by decide, by decide⟩
  intro s c hc
  have hc2 : c ∈ sanitizeChars s.data := hc
  simp only [sanitizeChars, List.mem_map] at hc2
  obtain ⟨c0, hc0, hmap⟩ := hc2
  have hfil : c0 ∈ s.data.filter keepChar := mem_of_mem_stripChars hc0
  have hkeep : keepChar c0 = true := (List.mem_filter.mp hfil).2
  by_cases hsp : c0 == ' '
  · rw [if_pos hsp] at hmap
    exact Or.inr (Or.inr hmap.symm)
  · rw [if_neg hsp] at hmap
    subst hmap
    simp only [keepChar, Bool.or_eq_true, beq_iff_eq] at hkeep
    rcases hkeep with ((h | h) | h) | h
    · exact Or.inl h
    · exact Or.inr (Or.inl h)
    · exact Or.inr (Or.inr h)
    · exact absurd (beq_iff_eq.mpr h) hsp

/-- C7 witness: the characterization applied to a concrete character of the
sanitized example string. -/
theorem c7_name_sanitizer_witness :
    'M'.isAlphanum = true ∨ 'M' = '-' ∨ 'M' = '_' :=
  c7_name_sanitizer.1 "  My Shoot! #1  " 'M' (by decide)

/-! ## Helper lemmas for the chunked copy model -/

/-- Flattening the chunk decomposition recovers the byte list (fuel
version). -/
theorem chunksOfAux_flatten {α : Type} (n : ℕ) :
    ∀ (fuel : ℕ) (l : List α), 0 < n → l.length ≤ fuel →
      (chunksOfAux n fuel l).flatten = l := by
  intro fuel
  induction fuel with
  | zero =>
    intro l _ hl
    have : l = [] := List.length_eq_zero.mp (Nat.le_zero.mp hl)
    subst this
    rfl
  | succ fuel ih =>
    intro l hn hl
    cases l with
    | nil => rfl
    | cons a as =>
      have hdrop : ((a :: as).drop n).length ≤ fuel := by
        rw [List.length_drop]
        simp only [List.length_cons] at hl ⊢
        omega
      simp only [chunksOfAux, List.flatten_cons, ih _ hn hdrop, List.take_append_drop]

/-- Flattening the chunk decomposition recovers the byte list. -/
theorem chunksOf_flatten {α : Type} (n : ℕ) (hn : 0 < n) (l : List α) :
    (chunksOf n l).flatten = l := by
  unfold chunksOf
  rw [if_neg (Nat.pos_iff_ne_zero.mp hn)]
  exact chunksOfAux_flatten n l.length l hn (le_refl _)

/-- Every size tier yields a positive chunk size. -/
theorem chunk_size_pos (n : ℕ) : 0 < chunk_size n := by
  unfold chunk_size
  split_ifs <;> norm_num

/-- With no injected stream failure the chunk loop writes all chunks. -/
theorem writeChunks_none :
    ∀ (chunks : List (List ℕ)) (idx : ℕ) (acc : List ℕ),
      writeChunks chunks idx none acc = Except.ok (acc ++ chunks.flatten) := by
  intro chunks
  induction chunks with
  | nil => intro idx acc; simp [writeChunks]
  | cons ch rest ih =>
    intro idx acc
    simp [writeChunks, ih, List.append_assoc]

/-- C5: on a stream error the copier falls back to the metadata-preserving
whole-file copy of the full source (overwriting partial bytes); if the
fallback also fails the error value is produced (and the folder loop,
which is a total function, leaves the copied-files counter untouched for
it and continues); with no failure the chunked path itself writes the full
content; the folder loop counts exactly the successful copies. -/
theorem c5_copy_fallback :
    (∀ (src : List ℕ) (failAt : Option ℕ) (e : String),
        writeChunks (chunksOf (chunk_size src.length) src) 0 failAt []
          = Except.error e →
        copy_file_with_progress src failAt false
          = Except.ok { content := src, metadataCopied := true })
    ∧ (∀ (src : List ℕ) (failAt : Option ℕ) (e : String),
        writeChunks (chunksOf (chunk_size src.length) src) 0 failAt []
          = Except.error e →
        copy_file_with_progress src failAt true
          = Except.error "copy of whole file failed")
    ∧ (∀ (src : List ℕ) (fb : Bool),
        copy_file_with_progress src none fb
          = Except.ok { content := src, metadataCopied := false })
    ∧ (∀ (n : ℕ) (rs : List (Except String DestFile)),
        copy_folder_loop n rs = n + rs.countP Except.isOk) := by
  refine ⟨?_, ?_, ?_, ?_⟩
  · intro src failAt e h
    unfold copy_file_with_progress
    rw [h]
    simp [shutil_copy2]
  · intro src failAt e h
    unfold copy_file_with_progress
    rw [h]
    simp [shutil_copy2]
  · intro src fb
    unfold copy_file_with_progress
    rw [writeChunks_none]
    simp [chunksOf_flatten _ (chunk_size_pos src.length)]
  · intro n rs
    induction rs generalizing n with
    | nil => simp [copy_folder_loop]
    | cons r rest ih =>
      cases r with
      | ok a =>
        simp only [copy_folder_loop, ih, List.countP_cons]
        simp [Except.isOk, Except.toBool]
        omega
      | error e =>
        simp only [copy_folder_loop, ih, List.countP_cons]
        simp [Except.isOk, Except.toBool]

/-- C5 witness: a concrete three-byte file whose first chunk write fails is
recovered by the fallback, and with a failing fallback produces the error
the folder loop then swallows. -/
theorem c5_copy_fallback_witness :
    copy_file_with_progress [1, 2, 3] (some 0) false
      = Except.ok { content := [1, 2, 3], metadataCopied := true }
    ∧ copy_file_with_progress [1, 2, 3] (some 0) true
      = Except.error "copy of whole file failed" :=
  ⟨c5_copy_fallback.1 [1, 2, 3] (some 0) "stream write failed" rfl,
   c5_copy_fallback.2.1 [1, 2, 3] (some 0) "stream write failed" rfl⟩

/-- C8: verifying a readable file against itself (unchanged contents
between the two digest computations, which the fixed filesystem map
models) reports a match with an empty detail string. -/
theorem c8_verify_self (md5hex : List ℕ → String) (fs : String → Option (List ℕ))
    (f : String) (content : List ℕ) (h : fs f = some content) :
    verify_file md5hex fs f f = (true, "") := by
  unfold verify_file calculate_md5
  rw [h]
  simp

/-- C8 witness: the self-verification theorem at a concrete file. -/
theorem c8_verify_self_witness :
    verify_file (fun _ => "digest") (fun _ => some [7, 7]) "card/a.mov" "card/a.mov"
      = (true, "") :=
  c8_verify_self (fun _ => "digest") (fun _ => some [7, 7]) "card/a.mov" [7, 7] rfl

/-! ## Helper lemma for the checksum loader -/

/-- Splitting at the first double space: when the prefix (followed by one
space) contains no double space, the split lands exactly on the separator,
leaving any later double spaces inside the second part. -/
theorem splitTwoSpaceOnce_first (p : List Char) :
    ∀ (h : List Char), hasDoubleSpace (h ++ [' ']) = false →
      splitTwoSpaceOnce (h ++ ' ' :: ' ' :: p) = some (h, p) := by
  intro h
  induction h with
  | nil => intro _; simp [splitTwoSpaceOnce]
  | cons c t ih =>
    intro hnd
    cases t with
    | nil =>
      have hc : (c == ' ') = false := by
        simp only [List.cons_append, List.nil_append, hasDoubleSpace,
          Bool.or_eq_false_iff] at hnd
        simpa using hnd.1
      simp [splitTwoSpaceOnce, hc]
    | cons d t2 =>
      have hnd2 : hasDoubleSpace ((d :: t2) ++ [' ']) = false := by
        simp only [List.cons_append, hasDoubleSpace, Bool.or_eq_false_iff] at hnd
        exact hnd.2
      have hcd : (c == ' ' && d == ' ') = false := by
        simp only [List.cons_append, hasDoubleSpace, Bool.or_eq_false_iff] at hnd
        exact hnd.1
      have hrec := ih hnd2
      simp only [List.cons_append] at hrec ⊢
      simp [splitTwoSpaceOnce, hcd, hrec]

/-- C9: the manifest loader skips whitespace-only lines and lines whose
stripped form begins with a hash mark, splits a well-formed line exactly at
the first double-space separator (later double spaces stay in the relative
path) recording path to digest, and a line with no separator contributes
nothing; a concrete manifest loads accordingly. -/
theorem c9_checksum_loader :
    (∀ (d : List (String × String)) (line : String),
        stripChars line.data = [] → load_checksum_line d line = d)
    ∧ (∀ (d : List (String × String)) (line : String) (rest : List Char),
        stripChars line.data = '#' :: rest → load_checksum_line d line = d)
    ∧ (∀ (d : List (String × String)) (line : String) (h p : List Char),
        stripChars line.data = h ++ ' ' :: ' ' :: p →
        hasDoubleSpace (h ++ [' ']) = false →
        (h ++ ' ' :: ' ' :: p).head? ≠ some '#' →
        load_checksum_line d line = dictInsert d (String.mk p) (String.mk h))
    ∧ (∀ (d : List (String × String)) (line : String),
        stripChars line.data ≠ [] → (stripChars line.data).head? ≠ some '#' →
        splitTwoSpaceOnce (stripChars line.data) = none →
        load_checksum_line d line = d)
    ∧ load_checksum_file ["# comment line", "   ", "abc  rel  path", "nosep"]
        = [("rel  path", "abc")] := by
  refine ⟨?_, ?_, ?_, ?_, by decide⟩
  · intro d line hstrip
    simp [load_checksum_line, hstrip]
  · intro d line rest hstrip
    simp [load_checksum_line, hstrip]
  · intro d line h p hstrip hnd hhead
    have hne : h ++ ' ' :: ' ' :: p ≠ [] := by simp
    simp only [load_checksum_line, hstrip]
    rw [if_pos ⟨hne, hhead⟩, splitTwoSpaceOnce_first p h hnd]
  · intro d line hne hhead hsplit
    simp only [load_checksum_line]
    rw [if_pos ⟨hne, hhead⟩, hsplit]

/-- C9 witness: the per-line facts applied to concrete manifest lines. -/
theorem c9_checksum_loader_witness :
    load_checksum_line [] "  " = []
    ∧ load_checksum_line [] "# note" = []
    ∧ load_checksum_line [] "abc  rel  path"
        = dictInsert [] (String.mk "rel  path".data) (String.mk "abc".data)
    ∧ load_checksum_line [] "nosep" = [] :=
  ⟨c9_checksum_loader.1 [] "  " (by decide),
   c9_checksum_loader.2.1 [] "# note" " note".data (by decide),
   c9_checksum_loader.2.2.1 [] "abc  rel  path" "abc".data "rel  path".data
     (by decide) (by decide) (by decide),
   c9_checksum_loader.2.2.2.1 [] "nosep" (by decide) (by decide) (by decide)⟩

/-- C1 (amended): after a throttled progress push the tracker's committed
copied-bytes counter is restored to its pre-push value; when the push fires
(total positive, provisional value more than one percent of the total away
from the committed value) the provisional value is only handed to the
display update and shown transiently before the restore. -/
theorem c1_provisional_push (committed total fileSize p : ℚ) :
    (displayPush committed total fileSize p).final = committed
    ∧ (0 < total →
        total * (1 / 100)
            < ratAbs (provisionalBytes committed total fileSize p - committed) →
        (displayPush committed total fileSize p).displayed
          = some (provisionalBytes committed total fileSize p)
        ∧ (displayPush committed total fileSize p).states
          = [(provisionalBytes committed total fileSize p, true),
             (committed, false)]) := by
  constructor
  · unfold displayPush
    split
    · split <;> rfl
    · rfl
  · intro ht hc
    unfold displayPush
    rw [if_pos ht, if_pos hc]
    exact ⟨rfl, rfl⟩

/-- C1 witness: the amended theorem at a concrete fired push. -/
theorem c1_provisional_push_witness :
    (displayPush 0 100 100 50).final = 0
    ∧ (displayPush 0 100 100 50).displayed = some (provisionalBytes 0 100 100 50) :=
  ⟨(c1_provisional_push 0 100 100 50).1,
   ((c1_provisional_push 0 100 100 50).2 (by norm_num)
      (by norm_num [provisionalBytes, ratMin, ratAbs])).1⟩

/-- C1 counterexample: a push that fires (committed 0 of 100 total, file
fully at 50 of 100 bytes, provisional value 50, well beyond the one-percent
threshold) shows 50 on the display, yet after the push the tracker's
committed copied-bytes value is 0, not the provisional 50 — refuting the
claim that the provisional value is actually committed. -/
theorem c1_provisional_push_counterexample :
    (displayPush 0 100 100 50).displayed = some 50
    ∧ (displayPush 0 100 100 50).final = 0
    ∧ ((0 : ℚ) ≠ 50) := by
  norm_num [displayPush, provisionalBytes, ratMin, ratAbs]

/-- Counting with a predicate that is false somewhere on the list stays
strictly below the length. -/
theorem countP_lt_length {α : Type} (p : α → Bool) :
    ∀ (l : List α) (a : α), a ∈ l → p a = false → l.countP p < l.length := by
  intro l
  induction l with
  | nil => intro a ha _; exact absurd ha (List.not_mem_nil a)
  | cons x xs ih =>
    intro a ha hpa
    rcases List.mem_cons.mp ha with h | h
    · subst h
      rw [List.countP_cons, hpa]
      have hle := List.countP_le_length p (l := xs)
      have hz : (if (false = true) then 1 else 0) = 0 := rfl
      simp only [List.length_cons, hz]
      omega
    · have hlt := ih a h hpa
      rw [List.countP_cons]
      by_cases hx : p x = true <;> simp only [hx, List.length_cons] <;> simp <;> omega

/-- C10: the verify-phase total counts every walked file while the copy
phase total counts only filter-passing files; with the media filter on and
a non-media file present (and a destination populated only by this
session's filtered copies), that file is walked by verification with the
missing outcome, the verify total strictly exceeds the copy total, and the
summary reports at least one failure. -/
theorem c10_verify_filter_asymmetry (files : List MFile) (dE hM : MFile → Bool)
    (hfresh : ∀ f ∈ files, dE f = true → passesFilter true f = true)
    (f : MFile) (hf : f ∈ files) (hx : passesFilter true f = false) :
    verifyOutcome dE hM f = VOutcome.missing
    ∧ total_files_count true files < total_md5_files files
    ∧ verifiedCount dE hM files < total_md5_files files
    ∧ 0 < summaryFailures dE hM files := by
  have hde : dE f = false := by
    cases hdef : dE f
    · rfl
    · exact absurd (hfresh f hf hdef) (by simp [hx])
  have h3 : verifiedCount dE hM files < total_md5_files files := by
    rw [verifiedCount, total_md5_files]
    refine countP_lt_length _ files f hf ?_
    simp [hde]
  refine ⟨?_, ?_, h3, ?_⟩
  · simp [verifyOutcome, hde]
  · rw [total_files_count, total_md5_files, ← List.countP_eq_length_filter]
    exact countP_lt_length _ files f hf hx
  · exact Nat.sub_pos_of_lt h3

/-- C10 witness: a two-file walk with the media filter on and one non-media
file, destination holding exactly the copied media file. -/
theorem c10_verify_filter_asymmetry_witness :
    verifyOutcome (fun g => g.isMedia) (fun _ => true)
        { size := 3, isMedia := false, pushPoints := [] } = VOutcome.missing
    ∧ total_files_count true
        [{ size := 5, isMedia := true, pushPoints := [] },
         { size := 3, isMedia := false, pushPoints := [] }]
      < total_md5_files
        [{ size := 5, isMedia := true, pushPoints := [] },
         { size := 3, isMedia := false, pushPoints := [] }]
    ∧ verifiedCount (fun g => g.isMedia) (fun _ => true)
        [{ size := 5, isMedia := true, pushPoints := [] },
         { size := 3, isMedia := false, pushPoints := [] }]
      < total_md5_files
        [{ size := 5, isMedia := true, pushPoints := [] },
         { size := 3, isMedia := false, pushPoints := [] }]
    ∧ 0 < summaryFailures (fun g => g.isMedia) (fun _ => true)
        [{ size := 5, isMedia := true, pushPoints := [] },
         { size := 3, isMedia := false, pushPoints := [] }] :=
  c10_verify_filter_asymmetry
    [{ size := 5, isMedia := true, pushPoints := [] },
     { size := 3, isMedia := false, pushPoints := [] }]
    (fun g => g.isMedia) (fun _ => true)
    (fun g _ hm => by simp [passesFilter, hm])
    { size := 3, isMedia := false, pushPoints := [] }
    (List.mem_cons_of_mem _ (List.mem_cons_self _ _))
    rfl

/-! ## Helper lemmas for the session counter model -/

/-- Appending a chain to a chain whose head is the last element of the
first. -/
theorem chain'_append_last {α : Type} {R : α → α → Prop} {l1 l2 : List α} {d : α}
    (h1 : List.Chain' R l1) (hl : l1.getLast? = some d)
    (h2 : List.Chain' R (d :: l2)) : List.Chain' R (l1 ++ l2) := by
  apply h1.append (List.chain'_cons'.mp h2).2
  intro x hx y hy
  rw [hl] at hx
  simp only [Option.mem_def, Option.some.injEq] at hx
  subst hx
  exact (List.chain'_cons'.mp h2).1 y hy

/-- Last element of an append when the tail of the second list is known. -/
theorem getLast?_append_of {α : Type} {l m : List α} {d e : α}
    (h1 : l.getLast? = some d) (h2 : (d :: m).getLast? = some e) :
    (l ++ m).getLast? = some e := by
  cases m with
  | nil =>
    have he : e = d := by simpa using h2.symm
    subst he
    simpa using h1
  | cons x xs =>
    rw [List.getLast?_append]
    have hx : (x :: xs).getLast? = some e :=
      (List.getLast?_cons_cons (a := d) (b := x) (l := xs)).symm.trans h2
    rw [hx]
    rfl

/-- A chain of monotone counter steps may pass through a block of states
that agree with its entry state on all four monotone counters. -/
theorem chain'_monoStep_bridge :
    ∀ (m : List Counters) (a b : Counters) (l : List Counters),
      (∀ x ∈ m, sameMono a x) → monoStep a b →
      List.Chain' monoStep (b :: l) →
      List.Chain' monoStep (a :: m ++ b :: l) := by
  intro m
  induction m with
  | nil =>
    intro a b l _ hab hbl
    exact List.chain'_cons.mpr ⟨hab, hbl⟩
  | cons x xs ih =>
    intro a b l hm hab hbl
    have hax : sameMono a x := hm x (List.mem_cons_self x xs)
    refine List.chain'_cons.mpr ⟨?_, ?_⟩
    · exact ⟨le_of_eq hax.1.symm, le_of_eq hax.2.1.symm,
        le_of_eq hax.2.2.1.symm, le_of_eq hax.2.2.2.symm⟩
    · refine ih x b l ?_ ?_ hbl
      · intro y hy
        have hay := hm y (List.mem_cons_of_mem x hy)
        exact ⟨hay.1.trans hax.1.symm, hay.2.1.trans hax.2.1.symm,
          hay.2.2.1.trans hax.2.2.1.symm, hay.2.2.2.trans hax.2.2.2.symm⟩
      · exact ⟨hax.1.trans_le hab.1, hax.2.1.trans_le hab.2.1,
          hax.2.2.1.trans_le hab.2.2.1, hax.2.2.2.trans_le hab.2.2.2⟩

/-- A chain of inequalities may pass through a block of values equal to its
entry value. -/
theorem chain'_le_bridge :
    ∀ (m : List ℚ) (a b : ℚ) (l : List ℚ),
      (∀ x ∈ m, x = a) → a ≤ b → List.Chain' (fun u v : ℚ => u ≤ v) (b :: l) →
      List.Chain' (fun u v : ℚ => u ≤ v) (a :: m ++ b :: l) := by
  intro m
  induction m with
  | nil =>
    intro a b l _ hab hbl
    exact List.chain'_cons.mpr ⟨hab, hbl⟩
  | cons x xs ih =>
    intro a b l hm hab hbl
    have hax : x = a := hm x (List.mem_cons_self x xs)
    refine List.chain'_cons.mpr ⟨le_of_eq hax.symm, ?_⟩
    refine ih x b l ?_ (hax.trans_le hab) hbl
    intro y hy
    exact ((hm y (List.mem_cons_of_mem x hy)).trans hax.symm)

/-- A constant list is a chain of inequalities and its last element is the
constant. -/
theorem chain'_le_const :
    ∀ (m : List ℚ) (a : ℚ), (∀ x ∈ m, x = a) →
      List.Chain' (fun u v : ℚ => u ≤ v) (a :: m)
      ∧ (a :: m).getLast? = some a := by
  intro m
  induction m with
  | nil => intro a _; exact ⟨List.chain'_singleton a, rfl⟩
  | cons x xs ih =>
    intro a hm
    have hx : x = a := hm x (List.mem_cons_self x xs)
    subst hx
    obtain ⟨hc, hl⟩ := ih x (fun y hy => hm y (List.mem_cons_of_mem x hy))
    refine ⟨List.chain'_cons.mpr ⟨le_refl x, hc⟩, ?_⟩
    rw [List.getLast?_cons_cons]
    exact hl

/-- Unfolding `passSum` over a passing head file. -/
theorem passSum_cons_pos (oM : Bool) (f : MFile) (fs : List MFile)
    (h : passesFilter oM f = true) :
    passSum oM (f :: fs) = f.size + passSum oM fs := by
  simp [passSum, List.filter_cons, h]

/-- Unfolding `passSum` over a filtered-out head file. -/
theorem passSum_cons_neg (oM : Bool) (f : MFile) (fs : List MFile)
    (h : passesFilter oM f = false) :
    passSum oM (f :: fs) = passSum oM fs := by
  simp [passSum, List.filter_cons, h]

/-- The passing total size is non-negative for non-negative file sizes. -/
theorem passSum_nonneg (oM : Bool) :
    ∀ (fs : List MFile), (∀ f ∈ fs, 0 ≤ f.size) → 0 ≤ passSum oM fs := by
  intro fs
  induction fs with
  | nil => intro _; simp [passSum]
  | cons f fs ih =>
    intro h
    have htail := ih (fun g hg => h g (List.mem_cons_of_mem f hg))
    have hhead := h f (List.mem_cons_self f fs)
    cases hp : passesFilter oM f
    · rw [passSum_cons_neg oM f fs hp]
      exact htail
    · rw [passSum_cons_pos oM f fs hp]
      linarith

/-- Unfolding `total_files_count` over a passing head file. -/
theorem total_files_count_cons_pos (oM : Bool) (f : MFile) (fs : List MFile)
    (h : passesFilter oM f = true) :
    total_files_count oM (f :: fs) = total_files_count oM fs + 1 := by
  simp [total_files_count, List.filter_cons, h]

/-- Unfolding `total_files_count` over a filtered-out head file. -/
theorem total_files_count_cons_neg (oM : Bool) (f : MFile) (fs : List MFile)
    (h : passesFilter oM f = false) :
    total_files_count oM (f :: fs) = total_files_count oM fs := by
  simp [total_files_count, List.filter_cons, h]

/-- `committedSizes` distributes over append. -/
theorem committedSizes_append (l1 l2 : List Counters) :
    committedSizes (l1 ++ l2) = committedSizes l1 ++ committedSizes l2 := by
  simp [committedSizes, List.filter_append]

/-- `committedSizes` keeps a non-transient head. -/
theorem committedSizes_cons_false (c : Counters) (l : List Counters)
    (h : c.transient = false) :
    committedSizes (c :: l) = c.copiedSize :: committedSizes l := by
  simp [committedSizes, List.filter_cons, h]

/-- Final counters of the counting walk: totals advance by the passing
count and size, everything else is untouched. -/
theorem countPhase_final (oM : Bool) :
    ∀ (fs : List MFile) (c : Counters),
      (countPhase oM fs c).2.totalFiles = c.totalFiles + total_files_count oM fs
      ∧ (countPhase oM fs c).2.totalSize = c.totalSize + passSum oM fs
      ∧ (countPhase oM fs c).2.copiedFiles = c.copiedFiles
      ∧ (countPhase oM fs c).2.verifiedFiles = c.verifiedFiles
      ∧ (countPhase oM fs c).2.copiedSize = c.copiedSize
      ∧ (countPhase oM fs c).2.transient = c.transient := by
  intro fs
  induction fs with
  | nil =>
    intro c
    simp [countPhase, total_files_count, passSum]
  | cons f fs ih =>
    intro c
    cases hp : passesFilter oM f
    · simp only [countPhase, hp]
      rw [total_files_count_cons_neg oM f fs hp, passSum_cons_neg oM f fs hp]
      simpa using ih c
    · simp only [countPhase, hp, if_true]
      obtain ⟨h1, h2, h3, h4, h5, h6⟩ :=
        ih { c with totalFiles := c.totalFiles + 1, totalSize := c.totalSize + f.size }
      rw [total_files_count_cons_pos oM f fs hp, passSum_cons_pos oM f fs hp]
      refine ⟨?_, ?_, h3, h4, h5, h6⟩
      · rw [h1]; simp; omega
      · rw [h2]; simp; ring

/-- States visited by the counting walk: only the totals move, and they
only grow. -/
theorem countPhase_states (oM : Bool) :
    ∀ (fs : List MFile) (c : Counters),
      (∀ f ∈ fs, 0 ≤ f.size) →
      ∀ x ∈ (countPhase oM fs c).1,
        x.copiedFiles = c.copiedFiles ∧ x.verifiedFiles = c.verifiedFiles
        ∧ x.copiedSize = c.copiedSize ∧ x.transient = c.transient
        ∧ c.totalSize ≤ x.totalSize ∧ c.totalFiles ≤ x.totalFiles := by
  intro fs
  induction fs with
  | nil =>
    intro c _ x hx
    simp [countPhase] at hx
  | cons f fs ih =>
    intro c hsz x hx
    have hszt : ∀ g ∈ fs, 0 ≤ g.size :=
      fun g hg => hsz g (List.mem_cons_of_mem f hg)
    have hszf : 0 ≤ f.size := hsz f (List.mem_cons_self f fs)
    cases hp : passesFilter oM f
    · simp only [countPhase, hp] at hx
      have hred : (if (false = true) then
          (let c1 := { c with totalFiles := c.totalFiles + 1,
                              totalSize := c.totalSize + f.size }
           let r := countPhase oM fs c1
           (c1 :: r.1, r.2))
          else countPhase oM fs c) = countPhase oM fs c := rfl
      rw [hred] at hx
      exact ih c hszt x hx
    · simp only [countPhase, hp, if_true] at hx
      rcases List.mem_cons.mp hx with rfl | hx
      · exact ⟨rfl, rfl, rfl, rfl, by simp [hszf], by simp⟩
      · obtain ⟨h1, h2, h3, h4, h5, h6⟩ := ih
          { c with totalFiles := c.totalFiles + 1, totalSize := c.totalSize + f.size }
          hszt x hx
        refine ⟨h1, h2, h3, h4, ?_, ?_⟩
        · refine le_trans ?_ h5
          simp [hszf]
        · refine le_trans ?_ h6
          simp

/-- The counting walk is a monotone chain ending at its final counters. -/
theorem countPhase_chain (oM : Bool) :
    ∀ (fs : List MFile) (c : Counters),
      (∀ f ∈ fs, 0 ≤ f.size) →
      List.Chain' monoStep (c :: (countPhase oM fs c).1)
      ∧ (c :: (countPhase oM fs c).1).getLast? = some (countPhase oM fs c).2 := by
  intro fs
  induction fs with
  | nil =>
    intro c _
    exact ⟨List.chain'_singleton c, rfl⟩
  | cons f fs ih =>
    intro c hsz
    have hszt : ∀ g ∈ fs, 0 ≤ g.size :=
      fun g hg => hsz g (List.mem_cons_of_mem f hg)
    have hszf : 0 ≤ f.size := hsz f (List.mem_cons_self f fs)
    cases hp : passesFilter oM f
    · simp only [countPhase, hp]
      exact ih c hszt
    · simp only [countPhase, hp, if_true]
      obtain ⟨hc, hl⟩ := ih
        { c with totalFiles := c.totalFiles + 1, totalSize := c.totalSize + f.size }
        hszt
      constructor
      · refine List.chain'_cons.mpr ⟨?_, hc⟩
        exact ⟨Nat.le_succ _, le_refl _, le_refl _, by simp [hszf]⟩
      · rw [List.getLast?_cons_cons]
        exact hl

/-- The provisional value is capped at the total transfer size. -/
theorem provisionalBytes_le_total (committed total fileSize p : ℚ) :
    provisionalBytes committed total fileSize p ≤ total := by
  unfold provisionalBytes ratMin
  by_cases h : committed + fileSize * (if 0 < fileSize then p / fileSize else 0) ≤ total
  · rw [if_pos h]; exact h
  · rw [if_neg h]

/-- Values taken during one throttled push: a state is either capped at
the total size (the provisional display state) or still the committed
value; non-transient states always carry the committed value. -/
theorem displayPush_states_le (committed total fileSize p : ℚ) :
    ∀ vt ∈ (displayPush committed total fileSize p).states,
      (vt.1 ≤ total ∨ vt.1 = committed) ∧ (vt.2 = false → vt.1 = committed) := by
  intro vt hvt
  unfold displayPush at hvt
  by_cases ht : (0:ℚ) < total
  · rw [if_pos ht] at hvt
    by_cases hc : total * (1 / 100)
        < ratAbs (provisionalBytes committed total fileSize p - committed)
    · rw [if_pos hc] at hvt
      simp only [List.mem_cons, List.not_mem_nil, or_false] at hvt
      rcases hvt with rfl | rfl
      · constructor
        · exact Or.inl (provisionalBytes_le_total committed total fileSize p)
        · intro hfalse
          simp at hfalse
      · exact ⟨Or.inr rfl, fun _ => rfl⟩
    · rw [if_neg hc] at hvt
      exact absurd hvt (List.not_mem_nil vt)
  · rw [if_neg ht] at hvt
    exact absurd hvt (List.not_mem_nil vt)

/-- Counter states during the pushes of one file copy: the four monotone
counters are untouched, `copiedSize` is either capped at the total or
still committed, and non-transient states carry the committed value. -/
theorem pushStates_mem (c : Counters) (f : MFile) :
    ∀ x ∈ pushStates c f,
      x.totalFiles = c.totalFiles ∧ x.copiedFiles = c.copiedFiles
      ∧ x.verifiedFiles = c.verifiedFiles ∧ x.totalSize = c.totalSize
      ∧ (x.copiedSize ≤ c.totalSize ∨ x.copiedSize = c.copiedSize)
      ∧ (x.transient = false → x.copiedSize = c.copiedSize) := by
  intro x hx
  unfold pushStates at hx
  rw [List.mem_flatMap] at hx
  obtain ⟨p, _, hx⟩ := hx
  rw [List.mem_map] at hx
  obtain ⟨vt, hvt, rfl⟩ := hx
  have h := displayPush_states_le c.copiedSize c.totalSize f.size p vt hvt
  exact ⟨rfl, rfl, rfl, rfl, h.1, h.2⟩

/-- Final counters of the copy walk: copied files and bytes advance by the
passing count and size, everything else is untouched. -/
theorem copyPhase_final (oM : Bool) :
    ∀ (fs : List MFile) (c : Counters),
      (copyPhase oM fs c).2.copiedSize = c.copiedSize + passSum oM fs
      ∧ (copyPhase oM fs c).2.copiedFiles = c.copiedFiles + total_files_count oM fs
      ∧ (copyPhase oM fs c).2.totalFiles = c.totalFiles
      ∧ (copyPhase oM fs c).2.verifiedFiles = c.verifiedFiles
      ∧ (copyPhase oM fs c).2.totalSize = c.totalSize
      ∧ (copyPhase oM fs c).2.transient = c.transient := by
  intro fs
  induction fs with
  | nil =>
    intro c
    simp [copyPhase, total_files_count, passSum]
  | cons f fs ih =>
    intro c
    cases hp : passesFilter oM f
    · simp only [copyPhase, hp]
      rw [total_files_count_cons_neg oM f fs hp, passSum_cons_neg oM f fs hp]
      simpa using ih c
    · simp only [copyPhase, hp, if_true]
      obtain ⟨h1, h2, h3, h4, h5, h6⟩ :=
        ih { c with copiedFiles := c.copiedFiles + 1,
                    copiedSize := c.copiedSize + f.size }
      rw [total_files_count_cons_pos oM f fs hp, passSum_cons_pos oM f fs hp]
      refine ⟨?_, ?_, h3, h4, h5, h6⟩
      · rw [h1]; simp; ring
      · rw [h2]; simp; omega

/-- States visited by the copy walk: the bound invariant holds throughout
given enough remaining capacity, and the verify and total counters are
untouched. -/
theorem copyPhase_states (oM : Bool) :
    ∀ (fs : List MFile) (c : Counters),
      (∀ f ∈ fs, 0 ≤ f.size) →
      c.copiedSize + passSum oM fs ≤ c.totalSize →
      ∀ x ∈ (copyPhase oM fs c).1,
        x.copiedSize ≤ x.totalSize ∧ x.verifiedFiles = c.verifiedFiles
        ∧ x.totalFiles = c.totalFiles ∧ x.totalSize = c.totalSize := by
  intro fs
  induction fs with
  | nil =>
    intro c _ _ x hx
    simp [copyPhase] at hx
  | cons f fs ih =>
    intro c hsz hcap x hx
    have hszt : ∀ g ∈ fs, 0 ≤ g.size :=
      fun g hg => hsz g (List.mem_cons_of_mem f hg)
    have hszf : 0 ≤ f.size := hsz f (List.mem_cons_self f fs)
    have hps : 0 ≤ passSum oM fs := passSum_nonneg oM fs hszt
    cases hp : passesFilter oM f
    · simp only [copyPhase, hp] at hx
      have hred : (if (false = true) then
          (let c1 := { c with copiedFiles := c.copiedFiles + 1,
                              copiedSize := c.copiedSize + f.size }
           let r := copyPhase oM fs c1
           (pushStates c f ++ c1 :: r.1, r.2))
          else copyPhase oM fs c) = copyPhase oM fs c := rfl
      rw [hred] at hx
      rw [passSum_cons_neg oM f fs hp] at hcap
      exact ih c hszt hcap x hx
    · simp only [copyPhase, hp, if_true] at hx
      rw [passSum_cons_pos oM f fs hp] at hcap
      rcases List.mem_append.mp hx with hx | hx
      · obtain ⟨e1, e2, e3, e4, e5, _⟩ := pushStates_mem c f x hx
        refine ⟨?_, e3, e1, e4⟩
        rcases e5 with h | h
        · rw [e4]; exact h
        · rw [e4, h]; linarith
      · rcases List.mem_cons.mp hx with rfl | hx
        · refine ⟨?_, rfl, rfl, rfl⟩
          show c.copiedSize + f.size ≤ c.totalSize
          linarith
        · have hcap1 : c.copiedSize + f.size + passSum oM fs ≤ c.totalSize := by
            linarith
          obtain ⟨h1, h2, h3, h4⟩ := ih
            { c with copiedFiles := c.copiedFiles + 1,
                     copiedSize := c.copiedSize + f.size }
            hszt hcap1 x hx
          exact ⟨h1, h2, h3, h4⟩

/-- The copy walk is a monotone chain ending at its final counters. -/
theorem copyPhase_chain (oM : Bool) :
    ∀ (fs : List MFile) (c : Counters),
      List.Chain' monoStep (c :: (copyPhase oM fs c).1)
      ∧ (c :: (copyPhase oM fs c).1).getLast? = some (copyPhase oM fs c).2 := by
  intro fs
  induction fs with
  | nil =>
    intro c
    exact ⟨List.chain'_singleton c, rfl⟩
  | cons f fs ih =>
    intro c
    cases hp : passesFilter oM f
    · simp only [copyPhase, hp]
      exact ih c
    · simp only [copyPhase, hp, if_true]
      obtain ⟨hc, hl⟩ := ih
        { c with copiedFiles := c.copiedFiles + 1,
                 copiedSize := c.copiedSize + f.size }
      constructor
      · refine chain'_monoStep_bridge (pushStates c f) c _ _ ?_ ?_ hc
        · intro x hx
          obtain ⟨e1, e2, e3, e4, _, _⟩ := pushStates_mem c f x hx
          exact ⟨e1, e2, e3, e4⟩
        · exact ⟨le_refl _, Nat.le_succ _, le_refl _, le_refl _⟩
      · rw [show c :: (pushStates c f ++
            { c with copiedFiles := c.copiedFiles + 1,
                     copiedSize := c.copiedSize + f.size } ::
            (copyPhase oM fs
              { c with copiedFiles := c.copiedFiles + 1,
                       copiedSize := c.copiedSize + f.size }).1)
            = (c :: pushStates c f) ++
              ({ c with copiedFiles := c.copiedFiles + 1,
                        copiedSize := c.copiedSize + f.size } ::
               (copyPhase oM fs
                 { c with copiedFiles := c.copiedFiles + 1,
                          copiedSize := c.copiedSize + f.size }).1) by simp]
        rw [List.getLast?_append, hl]
        rfl

/-- The committed (non-transient) copied sizes of the copy walk form a
non-decreasing chain from the entry value to the final value. -/
theorem copyPhase_committed (oM : Bool) :
    ∀ (fs : List MFile) (c : Counters),
      (∀ f ∈ fs, 0 ≤ f.size) → c.transient = false →
      List.Chain' (fun u v : ℚ => u ≤ v)
        (c.copiedSize :: committedSizes (copyPhase oM fs c).1)
      ∧ (c.copiedSize :: committedSizes (copyPhase oM fs c).1).getLast?
          = some (copyPhase oM fs c).2.copiedSize := by
  intro fs
  induction fs with
  | nil =>
    intro c _ _
    exact ⟨List.chain'_singleton _, by simp [copyPhase, committedSizes]⟩
  | cons f fs ih =>
    intro c hsz htr
    have hszt : ∀ g ∈ fs, 0 ≤ g.size :=
      fun g hg => hsz g (List.mem_cons_of_mem f hg)
    have hszf : 0 ≤ f.size := hsz f (List.mem_cons_self f fs)
    cases hp : passesFilter oM f
    · simp only [copyPhase, hp]
      exact ih c hszt htr
    · simp only [copyPhase, hp, if_true]
      obtain ⟨hc, hl⟩ := ih
        { c with copiedFiles := c.copiedFiles + 1,
                 copiedSize := c.copiedSize + f.size }
        hszt htr
      rw [committedSizes_append,
        committedSizes_cons_false
          { c with copiedFiles := c.copiedFiles + 1,
                   copiedSize := c.copiedSize + f.size }
          (copyPhase oM fs
            { c with copiedFiles := c.copiedFiles + 1,
                     copiedSize := c.copiedSize + f.size }).1
          htr]
      constructor
      · refine chain'_le_bridge (committedSizes (pushStates c f)) c.copiedSize _ _
          ?_ ?_ hc
        · intro x hx
          unfold committedSizes at hx
          rw [List.mem_map] at hx
          obtain ⟨y, hy, rfl⟩ := hx
          rw [List.mem_filter] at hy
          obtain ⟨hy, hyt⟩ := hy
          obtain ⟨_, _, _, _, _, e6⟩ := pushStates_mem c f y hy
          exact e6 (by simpa using hyt)
        · show c.copiedSize ≤ c.copiedSize + f.size
          linarith
      · rw [show (c.copiedSize :: (committedSizes (pushStates c f) ++
            (c.copiedSize + f.size) :: committedSizes
              (copyPhase oM fs
                { c with copiedFiles := c.copiedFiles + 1,
                         copiedSize := c.copiedSize + f.size }).1))
            = (c.copiedSize :: committedSizes (pushStates c f)) ++
              ((c.copiedSize + f.size) :: committedSizes
                (copyPhase oM fs
                  { c with copiedFiles := c.copiedFiles + 1,
                           copiedSize := c.copiedSize + f.size }).1) by simp]
        rw [List.getLast?_append, hl]
        rfl

/-- States visited by the verify walk: only `verified_files` moves, it
never exceeds the entry value plus the matched count of the remaining
walk, and every other counter is untouched. -/
theorem verifyPhase_states (dE hM : MFile → Bool) :
    ∀ (fs : List MFile) (c : Counters),
      ∀ x ∈ (verifyPhase dE hM fs c).1,
        x.totalFiles = c.totalFiles ∧ x.copiedFiles = c.copiedFiles
        ∧ x.totalSize = c.totalSize ∧ x.copiedSize = c.copiedSize
        ∧ x.transient = c.transient
        ∧ x.verifiedFiles ≤ c.verifiedFiles
            + fs.countP (fun g => dE g && hM g) := by
  intro fs
  induction fs with
  | nil =>
    intro c x hx
    simp [verifyPhase] at hx
  | cons f fs ih =>
    intro c x hx
    simp only [verifyPhase] at hx
    rw [List.countP_cons]
    by_cases hd : (dE f && hM f) = true
    · rw [if_pos hd] at hx
      rcases List.mem_cons.mp hx with rfl | hx
      · refine ⟨rfl, rfl, rfl, rfl, rfl, ?_⟩
        simp only [hd, if_true]
        have := Nat.zero_le (fs.countP (fun g => dE g && hM g))
        omega
      · obtain ⟨h1, h2, h3, h4, h5, h6⟩ :=
          ih { c with verifiedFiles := c.verifiedFiles + 1 } x hx
        refine ⟨h1, h2, h3, h4, h5, ?_⟩
        simp only [hd, if_true]
        simp only [Counters.verifiedFiles] at h6
        omega
    · rw [if_neg hd] at hx
      rcases List.mem_cons.mp hx with rfl | hx
      · refine ⟨rfl, rfl, rfl, rfl, rfl, ?_⟩
        omega
      · obtain ⟨h1, h2, h3, h4, h5, h6⟩ := ih c x hx
        refine ⟨h1, h2, h3, h4, h5, ?_⟩
        omega

/-- The verify walk is a monotone chain ending at its final counters. -/
theorem verifyPhase_chain (dE hM : MFile → Bool) :
    ∀ (fs : List MFile) (c : Counters),
      List.Chain' monoStep (c :: (verifyPhase dE hM fs c).1)
      ∧ (c :: (verifyPhase dE hM fs c).1).getLast?
          = some (verifyPhase dE hM fs c).2 := by
  intro fs
  induction fs with
  | nil =>
    intro c
    exact ⟨List.chain'_singleton c, rfl⟩
  | cons f fs ih =>
    intro c
    simp only [verifyPhase]
    by_cases hd : (dE f && hM f) = true
    · rw [if_pos hd]
      obtain ⟨hc, hl⟩ := ih { c with verifiedFiles := c.verifiedFiles + 1 }
      refine ⟨List.chain'_cons.mpr ⟨?_, hc⟩, ?_⟩
      · exact ⟨le_refl _, le_refl _, Nat.le_succ _, le_refl _⟩
      · rw [List.getLast?_cons_cons]
        exact hl
    · rw [if_neg hd]
      obtain ⟨hc, hl⟩ := ih c
      refine ⟨List.chain'_cons.mpr ⟨?_, hc⟩, ?_⟩
      · exact ⟨le_refl _, le_refl _, le_refl _, le_refl _⟩
      · rw [List.getLast?_cons_cons]
        exact hl

/-- C2 (amended): across a whole session trace, `copied_size ≤ total_size`
and `verified_files ≤ total_files` hold at every state (the latter given a
destination populated only by this session's filtered copies);
`total_files`, `copied_files`, `verified_files` and `total_size` are
monotonically non-decreasing along the trace, which starts from the zeroed
counters of the session-start reset; and `copied_size` is monotonically
non-decreasing over the non-transient states — but not over the transient
display-push states, where it is temporarily raised and then restored. -/
theorem c2_counter_invariants (oM : Bool) (dE hM : MFile → Bool)
    (files : List MFile)
    (hsz : ∀ f ∈ files, 0 ≤ f.size)
    (hfresh : ∀ f ∈ files, dE f = true → passesFilter oM f = true) :
    (∀ x ∈ sessionTrace oM dE hM files,
        x.copiedSize ≤ x.totalSize ∧ x.verifiedFiles ≤ x.totalFiles)
    ∧ List.Chain' monoStep (sessionTrace oM dE hM files)
    ∧ List.Chain' (fun u v : ℚ => u ≤ v)
        (committedSizes (sessionTrace oM dE hM files))
    ∧ (sessionTrace oM dE hM files).head? = some zeroCounters := by
  have hco := countPhase_final oM files zeroCounters
  have hcoN : (countPhase oM files zeroCounters).2.totalFiles
      = total_files_count oM files := by
    rw [hco.1]
    simp [zeroCounters]
  have hcoS : (countPhase oM files zeroCounters).2.totalSize
      = passSum oM files := by
    rw [hco.2.1]
    simp [zeroCounters]
  have hcoCF : (countPhase oM files zeroCounters).2.copiedFiles = 0 := hco.2.2.1
  have hcoVF : (countPhase oM files zeroCounters).2.verifiedFiles = 0 :=
    hco.2.2.2.1
  have hcoCS : (countPhase oM files zeroCounters).2.copiedSize = 0 :=
    hco.2.2.2.2.1
  have hcoTR : (countPhase oM files zeroCounters).2.transient = false :=
    hco.2.2.2.2.2
  have hcp := copyPhase_final oM files (countPhase oM files zeroCounters).2
  have hcpS : (copyPhase oM files
      (countPhase oM files zeroCounters).2).2.copiedSize = passSum oM files := by
    rw [hcp.1, hcoCS]
    ring
  have hcpVF : (copyPhase oM files
      (countPhase oM files zeroCounters).2).2.verifiedFiles = 0 := by
    rw [hcp.2.2.2.1, hcoVF]
  have hcpN : (copyPhase oM files
      (countPhase oM files zeroCounters).2).2.totalFiles
      = total_files_count oM files := by
    rw [hcp.2.2.1, hcoN]
  have hcpTS : (copyPhase oM files
      (countPhase oM files zeroCounters).2).2.totalSize = passSum oM files := by
    rw [hcp.2.2.2.2.1, hcoS]
  have hcpTR : (copyPhase oM files
      (countPhase oM files zeroCounters).2).2.transient = false := by
    rw [hcp.2.2.2.2.2, hcoTR]
  have hcap : (countPhase oM files zeroCounters).2.copiedSize + passSum oM files
      ≤ (countPhase oM files zeroCounters).2.totalSize := by
    rw [hcoCS, hcoS]
    simp
  have hcountDE : files.countP (fun g => dE g && hM g)
      ≤ total_files_count oM files := by
    rw [total_files_count, ← List.countP_eq_length_filter]
    refine List.countP_mono_left ?_
    intro g hg hpg
    have hpg2 := hpg
    simp only [Bool.and_eq_true] at hpg2
    exact hfresh g hg hpg2.1
  refine ⟨?_, ?_, ?_, rfl⟩
  · intro x hx
    simp only [sessionTrace] at hx
    rcases List.mem_cons.mp hx with rfl | hx
    · exact ⟨le_refl 0, Nat.le_refl 0⟩
    rcases List.mem_append.mp hx with hx | hx
    · rcases List.mem_append.mp hx with hx | hx
      · obtain ⟨e1, e2, e3, e4, e5, e6⟩ :=
          countPhase_states oM files zeroCounters hsz x hx
        constructor
        · rw [e3]
          have h0 : (0:ℚ) ≤ x.totalSize := by
            simpa [zeroCounters] using e5
          simpa [zeroCounters] using h0
        · rw [e2]
          exact Nat.zero_le _
      · obtain ⟨h1, h2, h3, h4⟩ :=
          copyPhase_states oM files (countPhase oM files zeroCounters).2
            hsz hcap x hx
        refine ⟨h1, ?_⟩
        rw [h2, hcoVF]
        exact Nat.zero_le _
    · obtain ⟨h1, h2, h3, h4, h5, h6⟩ :=
        verifyPhase_states dE hM files
          (copyPhase oM files (countPhase oM files zeroCounters).2).2 x hx
      constructor
      · rw [h4, h3, hcpS, hcpTS]
      · rw [h1, hcpN]
        rw [hcpVF] at h6
        omega
  · have A := countPhase_chain oM files zeroCounters hsz
    have B := copyPhase_chain oM files (countPhase oM files zeroCounters).2
    have C := verifyPhase_chain dE hM files
      (copyPhase oM files (countPhase oM files zeroCounters).2).2
    have BC := chain'_append_last B.1 B.2 C.1
    have full := chain'_append_last A.1 A.2 BC
    simp only [sessionTrace]
    rw [List.append_assoc]
    exact full
  · have hconst_co : ∀ x ∈ committedSizes (countPhase oM files zeroCounters).1,
        x = 0 := by
      intro x hx
      unfold committedSizes at hx
      rw [List.mem_map] at hx
      obtain ⟨y, hy, rfl⟩ := hx
      rw [List.mem_filter] at hy
      obtain ⟨e1, e2, e3, e4, e5, e6⟩ :=
        countPhase_states oM files zeroCounters hsz y hy.1
      rw [e3]
      rfl
    have A3 := chain'_le_const
      (committedSizes (countPhase oM files zeroCounters).1) 0 hconst_co
    have B3 := copyPhase_committed oM files
      (countPhase oM files zeroCounters).2 hsz hcoTR
    rw [hcoCS, hcpS] at B3
    have hconst_vp : ∀ x ∈ committedSizes (verifyPhase dE hM files
        (copyPhase oM files (countPhase oM files zeroCounters).2).2).1,
        x = passSum oM files := by
      intro x hx
      unfold committedSizes at hx
      rw [List.mem_map] at hx
      obtain ⟨y, hy, rfl⟩ := hx
      rw [List.mem_filter] at hy
      obtain ⟨h1, h2, h3, h4, h5, h6⟩ :=
        verifyPhase_states dE hM files
          (copyPhase oM files (countPhase oM files zeroCounters).2).2 y hy.1
      rw [h4, hcpS]
    have C3 := chain'_le_const _ (passSum oM files) hconst_vp
    have BC3 := chain'_append_last B3.1 B3.2 C3.1
    have full3 := chain'_append_last A3.1 A3.2 BC3
    simp only [sessionTrace]
    rw [committedSizes_cons_false _ _ rfl, List.append_assoc,
      committedSizes_append, committedSizes_append]
    exact full3

/-- C2 witness: the amended invariants at a concrete one-file session whose
copy fires one throttled display push. -/
theorem c2_counter_invariants_witness :
    List.Chain' monoStep
      (sessionTrace false (fun _ => true) (fun _ => true)
        [{ size := 100, isMedia := true, pushPoints := [50] }])
    ∧ List.Chain' (fun u v : ℚ => u ≤ v)
        (committedSizes (sessionTrace false (fun _ => true) (fun _ => true)
          [{ size := 100, isMedia := true, pushPoints := [50] }])) :=
  ⟨(c2_counter_invariants false (fun _ => true) (fun _ => true)
      [{ size := 100, isMedia := true, pushPoints := [50] }]
      (by intro f hf; simp only [List.mem_singleton] at hf; subst hf; norm_num)
      (by intro f _ _; rfl)).2.1,
   (c2_counter_invariants false (fun _ => true) (fun _ => true)
      [{ size := 100, isMedia := true, pushPoints := [50] }]
      (by intro f hf; simp only [List.mem_singleton] at hf; subst hf; norm_num)
      (by intro f _ _; rfl)).2.2.1⟩

/-- C2 counterexample: in a session copying one 100-byte file whose copy
fires a throttled display push at 50 bytes, the successive values of the
tracker `copied_size` field are 0, 0, 50, 0, 100, 100 — the drop from the
transient 50 back to the committed 0 refutes the claim that every counter
is monotonically non-decreasing at every point of the session. -/
theorem c2_counter_invariants_counterexample :
    ¬ List.Chain' (fun u v : ℚ => u ≤ v)
        ((sessionTrace false (fun _ => true) (fun _ => true)
            [{ size := 100, isMedia := true, pushPoints := [50] }]).map
          Counters.copiedSize) := by
  intro h
  have htr : (sessionTrace false (fun _ => true) (fun _ => true)
        [{ size := 100, isMedia := true, pushPoints := [50] }]).map
      Counters.copiedSize = [0, 0, 50, 0, 100, 100] := by
    norm_num [sessionTrace, countPhase, copyPhase, verifyPhase, pushStates,
      displayPush, provisionalBytes, ratMin, ratAbs, passesFilter, zeroCounters]
  rw [htr, List.chain'_cons, List.chain'_cons, List.chain'_cons] at h
  exact absurd h.2.2.1 (by norm_num)

end CardCopy
